import Mathlib

/-!
# Verification of the happy-codec Base64 and UTF-8 transcoders

Shallow embedding of the pure-JS fallback implementations in
`src/lib/base64.ts` and `src/lib/utf8.ts`:

* byte buffers (`Uint8Array`) are `List Nat` with every element `< 256`;
* Base64 text is `List Char`;
* Unicode text is the list of its scalar values (`List Nat`), which is the
  faithful view of a well-formed (no unpaired surrogate) JS string iterated
  with `codePointAt` + surrogate-pair skip, and of output assembled with
  `String.fromCodePoint`;
* JS `throw` becomes `Except CodecError`, with the error taxonomy of the
  specification (`MalformedEncoding` for Base64 `SyntaxError`s,
  `InvalidByteSequence` for the UTF-8 fatal-mode `TypeError`).

Numeric code keeps the source's bit operators (`>>>`/`<<<`/`&&&`/`|||` for
JS `>>`, `<<`, `&`, `|` on the non-negative, below-2^31 values that occur
here, where they agree with the JS 32-bit operators).
-/

namespace HappyCodec

/-- Which base64 alphabet to use; source option `'base64' | 'base64url'`. -/
inductive Alphabet
  | base64
  | base64url
deriving DecidableEq

/-- Base64 `lastChunkHandling` option; `stop` models `'stop-before-partial'`. -/
inductive LastChunk
  | loose
  | strict
  | stop
deriving DecidableEq

/-- Error taxonomy from the spec: Base64 decode failures (JS `SyntaxError`)
are `MalformedEncoding`; UTF-8 fatal-mode failures (JS `TypeError`) are
`InvalidByteSequence`. -/
inductive CodecError
  | malformedEncoding (msg : String)
  | invalidByteSequence (msg : String)
deriving DecidableEq

instance {ε α : Type} [DecidableEq ε] [DecidableEq α] : DecidableEq (Except ε α) := fun
  | .ok a, .ok b =>
      match decEq a b with
      | isTrue h => isTrue (h ▸ rfl)
      | isFalse h => isFalse fun hh => h (by cases hh; rfl)
  | .error a, .error b =>
      match decEq a b with
      | isTrue h => isTrue (h ▸ rfl)
      | isFalse h => isFalse fun hh => h (by cases hh; rfl)
  | .ok _, .error _ => isFalse fun h => Except.noConfusion h
  | .error _, .ok _ => isFalse fun h => Except.noConfusion h

-- #region Base64 (src/lib/base64.ts)

/-- Common prefix shared by both base64 alphabets (first 62 characters). -/
def commonChars : String :=
  "ABCDEFGHIJKLMNOPQRSTUVWXYZabcdefghijklmnopqrstuvwxyz0123456789"

/-- Standard base64 character array (`base64abc`). -/
def base64abc : List Char := (commonChars ++ "+/").toList

/-- Base64url character array (`base64urlAbc`). -/
def base64urlAbc : List Char := (commonChars ++ "-_").toList

/-- `isUrlSafe`/alphabet selection: the character array for an alphabet. -/
def abcOf (alphabet : Alphabet) : List Char :=
  match alphabet with
  | .base64 => base64abc
  | .base64url => base64urlAbc

/-- `abc[n]` of the source encoder; indices produced by the encoder are
always `< 64`, so the default is never relevant on the source's inputs. -/
def b64CharAt (alphabet : Alphabet) (n : Nat) : Char :=
  (abcOf alphabet).getD n 'A'

/-- The lookup table built by `buildLookup`: maps an alphabet character to
its 6-bit index and (like the zero-initialized `Uint8Array(128)`) anything
else to `0`.  The decoder only consults it on characters that passed the
alphabet validation, plus `stripped.charCodeAt(-1)` on an all-padding
input, where JS yields `table[NaN] = undefined` and `undefined & mask = 0`;
both are matched by the `0` default. -/
def b64Lookup (alphabet : Alphabet) (c : Char) : Nat :=
  (((abcOf alphabet).findIdx? (· == c)).getD 0)

/-- Membership in the validation regex's character class
(`[A-Za-z0-9+/]` resp. `[A-Za-z0-9\-_]`), i.e. in the alphabet. -/
def isB64Char (alphabet : Alphabet) (c : Char) : Bool :=
  (abcOf alphabet).contains c

/-- `encodeBase64Fallback` (base64.ts lines 175-213): the indexed loop over
full 3-byte groups plus its 1- or 2-byte tail handling, rendered as
structural recursion in 3-byte steps. -/
def encodeBase64Fallback (bytes : List Nat) (alphabet : Alphabet)
    (omitPadding : Bool) : List Char :=
  match bytes with
  | x :: y :: z :: rest =>
      b64CharAt alphabet (x >>> 2) ::
      b64CharAt alphabet (((x &&& 0x03) <<< 4) ||| (y >>> 4)) ::
      b64CharAt alphabet (((y &&& 0x0f) <<< 2) ||| (z >>> 6)) ::
      b64CharAt alphabet (z &&& 0x3f) ::
      encodeBase64Fallback rest alphabet omitPadding
  | [x, y] =>
      -- 2 bytes remaining to write
      b64CharAt alphabet (x >>> 2) ::
      b64CharAt alphabet (((x &&& 0x03) <<< 4) ||| (y >>> 4)) ::
      b64CharAt alphabet ((y &&& 0x0f) <<< 2) ::
      (if omitPadding then [] else ['='])
  | [x] =>
      -- 1 byte remaining to write
      b64CharAt alphabet (x >>> 2) ::
      b64CharAt alphabet ((x &&& 0x03) <<< 4) ::
      (if omitPadding then [] else ['=', '='])
  | [] => []

/-- Number of trailing `'='` characters of the input (the length of the
maximal run matched from the end). -/
def countTrailingEq (base64 : List Char) : Nat :=
  (base64.reverse.takeWhile (· == '=')).length

/-- The decode loop of `decodeBase64Fallback`: full 4-character groups in
order, then — when `decodeExtra` — the 2- or 3-character leftover into 1 or
2 bytes.  A leftover single character never reaches this point (the
`remainder === 1` throw precedes it). -/
def decodeChunks (alphabet : Alphabet) (decodeExtra : Bool) :
    List Char → List Nat
  | c1 :: c2 :: c3 :: c4 :: rest =>
      let encoded1 := b64Lookup alphabet c1
      let encoded2 := b64Lookup alphabet c2
      let encoded3 := b64Lookup alphabet c3
      let encoded4 := b64Lookup alphabet c4
      ((encoded1 <<< 2) ||| (encoded2 >>> 4)) ::
      (((encoded2 &&& 15) <<< 4) ||| (encoded3 >>> 2)) ::
      (((encoded3 &&& 3) <<< 6) ||| (encoded4 &&& 63)) ::
      decodeChunks alphabet decodeExtra rest
  | [c1, c2] =>
      if decodeExtra then
        [(b64Lookup alphabet c1 <<< 2) ||| (b64Lookup alphabet c2 >>> 4)]
      else []
  | [c1, c2, c3] =>
      if decodeExtra then
        let encoded2 := b64Lookup alphabet c2
        [(b64Lookup alphabet c1 <<< 2) ||| (encoded2 >>> 4),
         ((encoded2 &&& 15) <<< 4) ||| (b64Lookup alphabet c3 >>> 2)]
      else []
  | _ => []

/-- `decodeBase64Fallback` (base64.ts lines 226-320).

The stripping regex `/={1,2}$/` removes `min 2` trailing `'='`; the
validation regex `^[A-Za-z0-9+/]*={0,2}$` (resp. the url-safe one) on the
*original* string is equivalent to: every character of the stripped part is
in the alphabet's character class (if ≥ 3 `'='` trail, the stripped part
still ends in `'='` and fails; interior `'='` also fails; the ≤ 2 stripped
trailing `'='` themselves always satisfy `={0,2}$`). -/
def decodeBase64Fallback (base64 : List Char) (alphabet : Alphabet)
    (lastChunkHandling : LastChunk) : Except CodecError (List Nat) :=
  let paddingChars := min (countTrailingEq base64) 2
  let stripped := base64.take (base64.length - paddingChars)
  let dataLength := stripped.length
  if base64.length > 0 && !(stripped.all (isB64Char alphabet)) then
    .error (.malformedEncoding
      "Found a character that cannot be part of a valid base64 string")
  else
    let remainder := dataLength % 4
    let hasIncompleteChunk := remainder != 0 && paddingChars == 0
    if remainder == 1 ||
        (hasIncompleteChunk && lastChunkHandling == .strict) then
      .error (.malformedEncoding
        "The base64 input terminates with a single character, excluding padding (=)")
    else
      let lastDataChar :=
        match stripped.getLast? with
        | some c => b64Lookup alphabet c
        | none => 0
      let mask := if paddingChars == 2 then 0x0f else 0x03
      if lastChunkHandling == .strict && paddingChars > 0 &&
          (lastDataChar &&& mask) != 0 then
        .error (.malformedEncoding
          "The base64 input terminates with non-zero padding bits")
      else
        let decodeExtra := remainder != 0 &&
          !(hasIncompleteChunk && lastChunkHandling == .stop)
        .ok (decodeChunks alphabet decodeExtra stripped)

-- #endregion

-- #region UTF-8 (src/lib/utf8.ts)

/-- A Unicode scalar value: what `codePointAt` yields on a JS string with
no unpaired surrogates. -/
def IsScalar (c : Nat) : Prop :=
  c < 0x110000 ∧ ¬(0xd800 ≤ c ∧ c ≤ 0xdfff)

instance (c : Nat) : Decidable (IsScalar c) := by
  unfold IsScalar; infer_instance

/-- A well-formed text, as its sequence of scalar values. -/
def ScalarList (s : List Nat) : Prop := ∀ c ∈ s, IsScalar c

instance (s : List Nat) : Decidable (ScalarList s) := by
  unfold ScalarList; infer_instance

/-- Loop body of `encodeUtf8Fallback` (utf8.ts lines 129-148): the bytes
pushed for one code point. -/
def encodeCodePoint (codePoint : Nat) : List Nat :=
  if codePoint < 0x80 then
    -- 1 byte
    [codePoint]
  else if codePoint < 0x800 then
    -- 2 bytes
    [0xc0 ||| (codePoint >>> 6), 0x80 ||| (codePoint &&& 0x3f)]
  else if codePoint < 0x10000 then
    -- 3 bytes
    [0xe0 ||| (codePoint >>> 12), 0x80 ||| ((codePoint >>> 6) &&& 0x3f),
     0x80 ||| (codePoint &&& 0x3f)]
  else
    -- 4 bytes (U+10000 and above)
    [0xf0 ||| (codePoint >>> 18), 0x80 ||| ((codePoint >>> 12) &&& 0x3f),
     0x80 ||| ((codePoint >>> 6) &&& 0x3f), 0x80 ||| (codePoint &&& 0x3f)]

/-- `encodeUtf8Fallback` (utf8.ts lines 122-152): the per-code-point
classification of the source loop, on the scalar-value view of the input
string (`codePointAt` plus the low-surrogate skip). -/
def encodeUtf8Fallback (data : List Nat) : List Nat :=
  match data with
  | [] => []
  | codePoint :: rest => encodeCodePoint codePoint ++ encodeUtf8Fallback rest

/-- Lead-byte classification of `decodeUtf8Fallback` (utf8.ts lines
189-216): for a valid multi-byte lead, `(bytesNeeded, initial codePoint,
lowerBoundary, upperBoundary)`; `none` for an invalid lead
(`0x80-0xC1, 0xF5-0xFF`; bytes `< 0x80` are handled before this). -/
def classifyLead (byte1 : Nat) : Option (Nat × Nat × Nat × Nat) :=
  if 0xc2 ≤ byte1 ∧ byte1 < 0xe0 then
    -- 2-byte character
    some (2, byte1 &&& 0x1f, 0x80, 0xbf)
  else if 0xe0 ≤ byte1 ∧ byte1 < 0xf0 then
    -- 3-byte character
    some (3, byte1 &&& 0x0f,
          if byte1 = 0xe0 then 0xa0 else 0x80,
          if byte1 = 0xed then 0x9f else 0xbf)
  else if 0xf0 ≤ byte1 ∧ byte1 < 0xf5 then
    -- 4-byte character
    some (4, byte1 &&& 0x07,
          if byte1 = 0xf0 then 0x90 else 0x80,
          if byte1 = 0xf4 then 0x8f else 0xbf)
  else
    none

/-- The `for (j = 1; j < bytesNeeded; j++)` continuation validation loop
(utf8.ts lines 226-237), over the list of continuation bytes: the first
byte is checked against `lowerBoundary`/`upperBoundary`, later ones
against `0x80`/`0xbf`; on success the accumulated code point, on the
first out-of-range byte `none` (`valid = false`). -/
def contBytes (lowerBoundary upperBoundary : Nat) :
    List Nat → Nat → Option Nat
  | [], codePoint => some codePoint
  | byte :: more, codePoint =>
      if byte < lowerBoundary ∨ byte > upperBoundary then none
      else contBytes 0x80 0xbf more ((codePoint <<< 6) ||| (byte &&& 0x3f))

/-- The `while` loop of `decodeUtf8Fallback` (utf8.ts lines 177-248), as
recursion over the byte list.  `handleInvalid` is `.error` when `fatal`,
else emits `0xfffd`.  The source's `i + bytesNeeded > length` truncation
check is `bytesNeeded > rest.length + 1`; it `break`s (one replacement for
all remaining bytes).  A bad continuation byte advances by exactly one
byte past the lead (`i += 1`), i.e. resumes on `rest`; a good sequence
advances by `bytesNeeded`, i.e. resumes on `rest.drop (bytesNeeded - 1)`. -/
def decodeUtf8Loop (fatal : Bool) : List Nat → Except CodecError (List Nat)
  | [] => .ok []
  | byte1 :: rest =>
    if byte1 < 0x80 then
      -- 1-byte character (ASCII: 0x00-0x7F)
      (decodeUtf8Loop fatal rest).map (byte1 :: ·)
    else
      match classifyLead byte1 with
      | none =>
        -- Invalid leading byte (0x80-0xC1, 0xF5-0xFF)
        if fatal then
          .error (.invalidByteSequence "The encoded data was not valid for encoding utf-8")
        else
          (decodeUtf8Loop fatal rest).map (0xfffd :: ·)
      | some (bytesNeeded, codePoint, lowerBoundary, upperBoundary) =>
        if bytesNeeded > rest.length + 1 then
          -- Truncated sequence: one replacement char for entire remaining bytes
          if fatal then
            .error (.invalidByteSequence "The encoded data was not valid for encoding utf-8")
          else
            .ok [0xfffd]
        else
          match contBytes lowerBoundary upperBoundary
              (rest.take (bytesNeeded - 1)) codePoint with
          | some cp =>
            (decodeUtf8Loop fatal (rest.drop (bytesNeeded - 1))).map (cp :: ·)
          | none =>
            -- Invalid continuation byte: output replacement and advance by 1
            if fatal then
              .error (.invalidByteSequence "The encoded data was not valid for encoding utf-8")
            else
              (decodeUtf8Loop fatal rest).map (0xfffd :: ·)
termination_by bytes => bytes.length
decreasing_by all_goals (simp only [List.length_cons, List.length_drop]; omega)

/-- `decodeUtf8Fallback` (utf8.ts lines 161-256): the loop, then BOM
stripping on the *result* (`result.startsWith(BOM)` → `slice(1)`); on the
scalar-value view that is: drop the head when it is U+FEFF. -/
def decodeUtf8Fallback (bytes : List Nat) (fatal ignoreBOM : Bool) :
    Except CodecError (List Nat) :=
  (decodeUtf8Loop fatal bytes).map fun result =>
    if !ignoreBOM && result.head? == some 0xfeff then result.tail else result

-- #endregion

-- Sanity checks against the repository's own test vectors.
example : encodeBase64Fallback [72, 101, 108, 108, 111] .base64 false
    = "SGVsbG8=".toList := by decide
example : encodeBase64Fallback [65] .base64 false = "QQ==".toList := by decide
example : encodeBase64Fallback [65, 66] .base64 false = "QUI=".toList := by decide
example : encodeBase64Fallback [65, 66, 67] .base64 false = "QUJD".toList := by decide
example : encodeBase64Fallback [65] .base64 true = "QQ".toList := by decide
example : decodeBase64Fallback "SGVsbG8=".toList .base64 .loose
    = .ok [72, 101, 108, 108, 111] := by decide
example : decodeBase64Fallback "QQ==".toList .base64 .strict = .ok [65] := by decide
example : (decodeBase64Fallback "QQ".toList .base64 .strict).isOk = false := by decide
example : (decodeBase64Fallback "QR==".toList .base64 .strict).isOk = false := by decide
example : (decodeBase64Fallback "QR==".toList .base64 .loose).isOk = true := by decide
example : decodeUtf8Fallback [228, 189, 160] false false = .ok [0x4f60] := by
  norm_num [decodeUtf8Fallback, decodeUtf8Loop, classifyLead, contBytes]
  all_goals decide
example : decodeUtf8Fallback [0xff, 0xfe] false false = .ok [0xfffd, 0xfffd] := by
  norm_num [decodeUtf8Fallback, decodeUtf8Loop, classifyLead, contBytes]
  all_goals decide
example : (decodeUtf8Fallback [0xff, 0xfe] true false).isOk = false := by
  norm_num [decodeUtf8Fallback, decodeUtf8Loop, classifyLead, contBytes]
  all_goals decide
example : decodeUtf8Fallback [0xf0, 0x9f, 0x98, 0x80] false false = .ok [0x1f600] := by
  norm_num [decodeUtf8Fallback, decodeUtf8Loop, classifyLead, contBytes]
  all_goals decide
example : decodeUtf8Fallback [0xe4, 0xb8] false false = .ok [0xfffd] := by
  norm_num [decodeUtf8Fallback, decodeUtf8Loop, classifyLead, contBytes]
  all_goals decide
example : decodeUtf8Fallback [0xe4, 0x00, 0xad] false false
    = .ok [0xfffd, 0x00, 0xfffd] := by
  norm_num [decodeUtf8Fallback, decodeUtf8Loop, classifyLead, contBytes]
  all_goals decide
example : decodeUtf8Fallback [0xe0, 0x80, 0x80] false false
    = .ok [0xfffd, 0xfffd, 0xfffd] := by
  norm_num [decodeUtf8Fallback, decodeUtf8Loop, classifyLead, contBytes]
  all_goals decide
example : decodeUtf8Fallback [0xed, 0xa0, 0x80] false false
    = .ok [0xfffd, 0xfffd, 0xfffd] := by
  norm_num [decodeUtf8Fallback, decodeUtf8Loop, classifyLead, contBytes]
  all_goals decide
example : decodeUtf8Fallback [0xf4, 0x90, 0x80, 0x80] false false
    = .ok [0xfffd, 0xfffd, 0xfffd, 0xfffd] := by
  norm_num [decodeUtf8Fallback, decodeUtf8Loop, classifyLead, contBytes]
  all_goals decide
example : decodeUtf8Fallback [0xef, 0xbb, 0xbf, 0x48, 0x69] false false
    = .ok [0x48, 0x69] := by
  norm_num [decodeUtf8Fallback, decodeUtf8Loop, classifyLead, contBytes]
  all_goals decide
example : decodeUtf8Fallback [0xef, 0xbb, 0xbf, 0x48, 0x69] false true
    = .ok [0xfeff, 0x48, 0x69] := by
  norm_num [decodeUtf8Fallback, decodeUtf8Loop, classifyLead, contBytes]
  all_goals decide
example : encodeUtf8Fallback [0x4f60, 0x597d]
    = [228, 189, 160, 229, 165, 189] := by decide

-- #region Arithmetic bridges: JS bit operators as division/modulus facts

theorem sr_two (a : Nat) : a >>> 2 = a / 4 := by
  have h := Nat.shiftRight_eq_div_pow a 2; norm_num at h; exact h

theorem sr_four (a : Nat) : a >>> 4 = a / 16 := by
  have h := Nat.shiftRight_eq_div_pow a 4; norm_num at h; exact h

theorem sr_six (a : Nat) : a >>> 6 = a / 64 := by
  have h := Nat.shiftRight_eq_div_pow a 6; norm_num at h; exact h

theorem sr_twelve (a : Nat) : a >>> 12 = a / 4096 := by
  have h := Nat.shiftRight_eq_div_pow a 12; norm_num at h; exact h

theorem sr_eighteen (a : Nat) : a >>> 18 = a / 262144 := by
  have h := Nat.shiftRight_eq_div_pow a 18; norm_num at h; exact h

theorem and_three (a : Nat) : a &&& 3 = a % 4 := by
  have h := Nat.and_pow_two_sub_one_eq_mod a 2; norm_num at h; exact h

theorem and_seven (a : Nat) : a &&& 7 = a % 8 := by
  have h := Nat.and_pow_two_sub_one_eq_mod a 3; norm_num at h; exact h

theorem and_fifteen (a : Nat) : a &&& 15 = a % 16 := by
  have h := Nat.and_pow_two_sub_one_eq_mod a 4; norm_num at h; exact h

theorem and_thirtyone (a : Nat) : a &&& 31 = a % 32 := by
  have h := Nat.and_pow_two_sub_one_eq_mod a 5; norm_num at h; exact h

theorem and_sixtythree (a : Nat) : a &&& 63 = a % 64 := by
  have h := Nat.and_pow_two_sub_one_eq_mod a 6; norm_num at h; exact h

/-- `c ||| d = c + d` when the set bits of `c` live above the `k` low bits
that bound `d`. -/
theorem lor_eq_add {k : Nat} (c d : Nat) (hc : c % 2 ^ k = 0) (hd : d < 2 ^ k) :
    c ||| d = c + d := by
  have h2 := Nat.mul_add_lt_is_or hd (c / 2 ^ k)
  have hc2 : 2 ^ k * (c / 2 ^ k) = c := Nat.mul_div_cancel' (Nat.dvd_of_mod_eq_zero hc)
  rw [hc2] at h2
  exact h2.symm

theorem sl_two_lor (a b : Nat) (hb : b < 4) : (a <<< 2) ||| b = a * 4 + b := by
  have h := lor_eq_add (k := 2) (a <<< 2) b (by rw [Nat.shiftLeft_eq]; norm_num [Nat.mul_mod_left]) (by simpa using hb)
  rw [h, Nat.shiftLeft_eq]

theorem sl_four_lor (a b : Nat) (hb : b < 16) : (a <<< 4) ||| b = a * 16 + b := by
  have h := lor_eq_add (k := 4) (a <<< 4) b (by rw [Nat.shiftLeft_eq]; norm_num [Nat.mul_mod_left]) (by simpa using hb)
  rw [h, Nat.shiftLeft_eq]

theorem sl_six_lor (a b : Nat) (hb : b < 64) : (a <<< 6) ||| b = a * 64 + b := by
  have h := lor_eq_add (k := 6) (a <<< 6) b (by rw [Nat.shiftLeft_eq]; norm_num [Nat.mul_mod_left]) (by simpa using hb)
  rw [h, Nat.shiftLeft_eq]

theorem sl_two (a : Nat) : a <<< 2 = a * 4 := by
  rw [Nat.shiftLeft_eq]

theorem sl_four (a : Nat) : a <<< 4 = a * 16 := by
  rw [Nat.shiftLeft_eq]

theorem lor_c0 (d : Nat) (hd : d < 64) : 0xc0 ||| d = 0xc0 + d :=
  lor_eq_add (k := 6) 0xc0 d (by norm_num) (by simpa using hd)

theorem lor_e0 (d : Nat) (hd : d < 32) : 0xe0 ||| d = 0xe0 + d :=
  lor_eq_add (k := 5) 0xe0 d (by norm_num) (by simpa using hd)

theorem lor_f0 (d : Nat) (hd : d < 16) : 0xf0 ||| d = 0xf0 + d :=
  lor_eq_add (k := 4) 0xf0 d (by norm_num) (by simpa using hd)

theorem lor_80 (d : Nat) (hd : d < 64) : 0x80 ||| d = 0x80 + d :=
  lor_eq_add (k := 6) 0x80 d (by norm_num) (by simpa using hd)

-- #endregion

-- #region List induction helpers matching the codecs' group recursions

/-- Induction in steps of three elements, matching the Base64 encoder's
main loop plus its ≤ 2-byte tail. -/
theorem threeStep_induction {α : Type} (P : List α → Prop) (h0 : P [])
    (h1 : ∀ x, P [x]) (h2 : ∀ x y, P [x, y])
    (h3 : ∀ x y z rest, P rest → P (x :: y :: z :: rest)) : ∀ l, P l := by
  have key : ∀ n (l : List α), l.length ≤ n → P l := by
    intro n
    induction n with
    | zero =>
      intro l hl
      cases l with
      | nil => exact h0
      | cons a as => simp at hl
    | succ n ih =>
      intro l hl
      match l with
      | [] => exact h0
      | [x] => exact h1 x
      | [x, y] => exact h2 x y
      | x :: y :: z :: rest =>
        exact h3 x y z rest (ih rest (by simp at hl ⊢; omega))
  exact fun l => key l.length l le_rfl

/-- Induction in steps of four elements, matching the Base64 decoder's
chunk loop plus its ≤ 3-character leftover. -/
theorem fourStep_induction {α : Type} (P : List α → Prop) (h0 : P [])
    (h1 : ∀ x, P [x]) (h2 : ∀ x y, P [x, y]) (h3 : ∀ x y z, P [x, y, z])
    (h4 : ∀ x y z w rest, P rest → P (x :: y :: z :: w :: rest)) : ∀ l, P l := by
  have key : ∀ n (l : List α), l.length ≤ n → P l := by
    intro n
    induction n with
    | zero =>
      intro l hl
      cases l with
      | nil => exact h0
      | cons a as => simp at hl
    | succ n ih =>
      intro l hl
      match l with
      | [] => exact h0
      | [x] => exact h1 x
      | [x, y] => exact h2 x y
      | [x, y, z] => exact h3 x y z
      | x :: y :: z :: w :: rest =>
        exact h4 x y z w rest (ih rest (by simp at hl ⊢; omega))
  exact fun l => key l.length l le_rfl

-- #endregion

-- #region Base64 alphabet facts

theorem b64Lookup_b64CharAt (a : Alphabet) (n : Fin 64) :
    b64Lookup a (b64CharAt a n) = n := by
  cases a <;> (revert n; decide)

theorem isB64Char_b64CharAt (a : Alphabet) (n : Fin 64) :
    isB64Char a (b64CharAt a n) = true := by
  cases a <;> (revert n; decide)

theorem isB64Char_ne_eq (a : Alphabet) (c : Char)
    (h : isB64Char a c = true) : c ≠ '=' := by
  intro heq
  subst heq
  revert h
  cases a <;> decide

theorem b64Lookup_b64CharAt' (a : Alphabet) (n : Nat) (h : n < 64) :
    b64Lookup a (b64CharAt a n) = n := b64Lookup_b64CharAt a ⟨n, h⟩

theorem isB64Char_b64CharAt' (a : Alphabet) (n : Nat) (h : n < 64) :
    isB64Char a (b64CharAt a n) = true := isB64Char_b64CharAt a ⟨n, h⟩

-- #endregion

-- #region Base64 round-trip: bit-slicing reconstruction identities

/-- First decoded byte of a group recovers the first encoded byte. -/
theorem recon_byte1 (x y : Nat) (hx : x < 256) (hy : y < 256) :
    ((x >>> 2) <<< 2) ||| ((((x &&& 0x03) <<< 4) ||| (y >>> 4)) >>> 4) = x := by
  have e2eq : ((x &&& 0x03) <<< 4) ||| (y >>> 4) = (x % 4) * 16 + y / 16 := by
    rw [and_three, sl_four_lor _ _ (by rw [sr_four]; omega), sr_four]
  rw [e2eq, sl_two_lor _ _ (by rw [sr_four]; omega), sr_two, sr_four]
  omega

/-- Same, for a final 2-character group (`(x & 3) << 4` with no second byte). -/
theorem recon_byte1t (x : Nat) (hx : x < 256) :
    ((x >>> 2) <<< 2) ||| (((x &&& 0x03) <<< 4) >>> 4) = x := by
  rw [and_three, sl_four, sl_two_lor _ _ (by rw [sr_four]; omega), sr_two, sr_four]
  omega

/-- Second decoded byte of a group recovers the second encoded byte. -/
theorem recon_byte2 (x y z : Nat) (hx : x < 256) (hy : y < 256) (hz : z < 256) :
    (((((x &&& 0x03) <<< 4) ||| (y >>> 4)) &&& 15) <<< 4) |||
      ((((y &&& 0x0f) <<< 2) ||| (z >>> 6)) >>> 2) = y := by
  have e2eq : ((x &&& 0x03) <<< 4) ||| (y >>> 4) = (x % 4) * 16 + y / 16 := by
    rw [and_three, sl_four_lor _ _ (by rw [sr_four]; omega), sr_four]
  have e3eq : ((y &&& 0x0f) <<< 2) ||| (z >>> 6) = (y % 16) * 4 + z / 64 := by
    rw [and_fifteen, sl_two_lor _ _ (by rw [sr_six]; omega), sr_six]
  rw [e2eq, e3eq, and_fifteen, sl_four_lor _ _ (by rw [sr_two]; omega), sr_two]
  omega

/-- Same, for a final 3-character group (`(y & 0xf) << 2` with no third byte). -/
theorem recon_byte2t (x y : Nat) (hx : x < 256) (hy : y < 256) :
    (((((x &&& 0x03) <<< 4) ||| (y >>> 4)) &&& 15) <<< 4) |||
      (((y &&& 0x0f) <<< 2) >>> 2) = y := by
  have e2eq : ((x &&& 0x03) <<< 4) ||| (y >>> 4) = (x % 4) * 16 + y / 16 := by
    rw [and_three, sl_four_lor _ _ (by rw [sr_four]; omega), sr_four]
  rw [e2eq, and_fifteen, sl_two, and_fifteen, sl_four_lor _ _ (by rw [sr_two]; omega), sr_two]
  omega

/-- Third decoded byte of a group recovers the third encoded byte. -/
theorem recon_byte3 (y z : Nat) (hy : y < 256) (hz : z < 256) :
    (((((y &&& 0x0f) <<< 2) ||| (z >>> 6)) &&& 3) <<< 6) |||
      ((z &&& 0x3f) &&& 63) = z := by
  have e3eq : ((y &&& 0x0f) <<< 2) ||| (z >>> 6) = (y % 16) * 4 + z / 64 := by
    rw [and_fifteen, sl_two_lor _ _ (by rw [sr_six]; omega), sr_six]
  rw [e3eq, and_three, and_sixtythree, and_sixtythree,
    sl_six_lor _ _ (by omega)]
  omega

-- #endregion

-- #region Base64 round-trip: encoder structure

/-- The padding characters appended by the encoder for each remainder of
`byteLength % 3` (when `omitPadding` is false). -/
def padOf : Nat → List Char
  | 1 => ['=', '=']
  | 2 => ['=']
  | _ => []

theorem padOf_all_eq (r : Nat) : ∀ c ∈ padOf r, c = '=' := by
  match r with
  | 0 => simp [padOf]
  | 1 => simp [padOf]
  | 2 => simp [padOf]
  | n + 3 => simp [padOf]

theorem padOf_length_le (r : Nat) : (padOf r).length ≤ 2 := by
  match r with
  | 0 => simp [padOf]
  | 1 => simp [padOf]
  | 2 => simp [padOf]
  | n + 3 => simp [padOf]

/-- Padded encoding = unpadded encoding plus the `padOf` tail. -/
theorem encode_split (a : Alphabet) :
    ∀ bytes : List Nat, encodeBase64Fallback bytes a false
      = encodeBase64Fallback bytes a true ++ padOf (bytes.length % 3) := by
  refine threeStep_induction _ ?_ ?_ ?_ ?_
  · simp [encodeBase64Fallback, padOf]
  · intro x
    simp [encodeBase64Fallback, padOf]
  · intro x y
    simp [encodeBase64Fallback, padOf]
  · intro x y z rest ih
    have hlen : (x :: y :: z :: rest).length % 3 = rest.length % 3 := by
      simp [List.length_cons]; omega
    simp only [encodeBase64Fallback, ih, hlen, List.cons_append]

/-- Every character the encoder emits (without padding) is in the chosen
alphabet's character class. -/
theorem encode_all_b64 (a : Alphabet) :
    ∀ bytes : List Nat, (∀ b ∈ bytes, b < 256) →
      (encodeBase64Fallback bytes a true).all (isB64Char a) = true := by
  refine threeStep_induction _ ?_ ?_ ?_ ?_
  · intro _; simp [encodeBase64Fallback]
  · intro x hx
    have hx' : x < 256 := hx x (by simp)
    simp [encodeBase64Fallback,
      isB64Char_b64CharAt' a (x >>> 2) (by rw [sr_two]; omega),
      isB64Char_b64CharAt' a ((x &&& 0x03) <<< 4) (by rw [and_three, sl_four]; omega)]
  · intro x y hxy
    have hx' : x < 256 := hxy x (by simp)
    have hy' : y < 256 := hxy y (by simp)
    simp [encodeBase64Fallback,
      isB64Char_b64CharAt' a (x >>> 2) (by rw [sr_two]; omega),
      isB64Char_b64CharAt' a (((x &&& 0x03) <<< 4) ||| (y >>> 4))
        (by rw [and_three, sl_four_lor _ _ (by rw [sr_four]; omega), sr_four]; omega),
      isB64Char_b64CharAt' a ((y &&& 0x0f) <<< 2) (by rw [and_fifteen, sl_two]; omega)]
  · intro x y z rest ih hmem
    have hx' : x < 256 := hmem x (by simp)
    have hy' : y < 256 := hmem y (by simp)
    have hz' : z < 256 := hmem z (by simp)
    have ih' := ih (fun b hb => hmem b (by simp [hb]))
    simp [encodeBase64Fallback, ih',
      isB64Char_b64CharAt' a (x >>> 2) (by rw [sr_two]; omega),
      isB64Char_b64CharAt' a (((x &&& 0x03) <<< 4) ||| (y >>> 4))
        (by rw [and_three, sl_four_lor _ _ (by rw [sr_four]; omega), sr_four]; omega),
      isB64Char_b64CharAt' a (((y &&& 0x0f) <<< 2) ||| (z >>> 6))
        (by rw [and_fifteen, sl_two_lor _ _ (by rw [sr_six]; omega), sr_six]; omega),
      isB64Char_b64CharAt' a (z &&& 0x3f) (by rw [and_sixtythree]; omega)]

/-- Length of the unpadded encoding. -/
theorem encode_true_length (a : Alphabet) :
    ∀ bytes : List Nat, (encodeBase64Fallback bytes a true).length
      = 4 * (bytes.length / 3) +
        (if bytes.length % 3 = 0 then 0 else bytes.length % 3 + 1) := by
  refine threeStep_induction _ ?_ ?_ ?_ ?_
  · simp [encodeBase64Fallback]
  · intro x; simp [encodeBase64Fallback]
  · intro x y; simp [encodeBase64Fallback]
  · intro x y z rest ih
    have h3 : (x :: y :: z :: rest).length = rest.length + 3 := by
      simp only [List.length_cons]
    simp only [encodeBase64Fallback, List.length_cons, ih, h3]
    have hd : (rest.length + 3) / 3 = rest.length / 3 + 1 := by omega
    have hm : (rest.length + 3) % 3 = rest.length % 3 := by omega
    rw [hd, hm]
    split <;> omega

/-- The decoder's chunk loop inverts the encoder's data characters (the
`decodeExtra` flag only matters when the byte count is not a multiple of
three). -/
theorem decodeChunks_encode (a : Alphabet) :
    ∀ bytes : List Nat, (∀ b ∈ bytes, b < 256) → ∀ flag : Bool,
      (flag = true ∨ bytes.length % 3 = 0) →
      decodeChunks a flag (encodeBase64Fallback bytes a true) = bytes := by
  refine threeStep_induction _ ?_ ?_ ?_ ?_
  · intro _ flag _
    simp [encodeBase64Fallback, decodeChunks]
  · intro x hx flag hflag
    have hx' : x < 256 := hx x (by simp)
    have hft : flag = true := by
      rcases hflag with h | h
      · exact h
      · simp at h
    subst hft
    simp only [encodeBase64Fallback, decodeChunks, if_pos]
    rw [b64Lookup_b64CharAt' a (x >>> 2) (by rw [sr_two]; omega),
      b64Lookup_b64CharAt' a ((x &&& 0x03) <<< 4) (by rw [and_three, sl_four]; omega),
      recon_byte1t x hx']
  · intro x y hxy flag hflag
    have hx' : x < 256 := hxy x (by simp)
    have hy' : y < 256 := hxy y (by simp)
    have hft : flag = true := by
      rcases hflag with h | h
      · exact h
      · simp at h
    subst hft
    simp only [encodeBase64Fallback, decodeChunks, if_pos]
    rw [b64Lookup_b64CharAt' a (x >>> 2) (by rw [sr_two]; omega),
      b64Lookup_b64CharAt' a (((x &&& 0x03) <<< 4) ||| (y >>> 4))
        (by rw [and_three, sl_four_lor _ _ (by rw [sr_four]; omega), sr_four]; omega),
      b64Lookup_b64CharAt' a ((y &&& 0x0f) <<< 2) (by rw [and_fifteen, sl_two]; omega),
      recon_byte1 x y hx' hy', recon_byte2t x y hx' hy']
  · intro x y z rest ih hmem flag hflag
    have hx' : x < 256 := hmem x (by simp)
    have hy' : y < 256 := hmem y (by simp)
    have hz' : z < 256 := hmem z (by simp)
    have ih' := ih (fun b hb => hmem b (by simp [hb])) flag
      (by
        rcases hflag with h | h
        · exact .inl h
        · right
          simp [List.length_cons] at h ⊢
          omega)
    simp only [encodeBase64Fallback, decodeChunks]
    rw [b64Lookup_b64CharAt' a (x >>> 2) (by rw [sr_two]; omega),
      b64Lookup_b64CharAt' a (((x &&& 0x03) <<< 4) ||| (y >>> 4))
        (by rw [and_three, sl_four_lor _ _ (by rw [sr_four]; omega), sr_four]; omega),
      b64Lookup_b64CharAt' a (((y &&& 0x0f) <<< 2) ||| (z >>> 6))
        (by rw [and_fifteen, sl_two_lor _ _ (by rw [sr_six]; omega), sr_six]; omega),
      b64Lookup_b64CharAt' a (z &&& 0x3f) (by rw [and_sixtythree]; omega),
      recon_byte1 x y hx' hy', recon_byte2 x y z hx' hy' hz', recon_byte3 y z hy' hz', ih']

-- #endregion

-- #region Base64 round-trip: stripping the padding back off

theorem countTrailingEq_no_eq {l : List Char} (h : ∀ c ∈ l, c ≠ '=') :
    countTrailingEq l = 0 := by
  unfold countTrailingEq
  cases hr : l.reverse with
  | nil => simp
  | cons c cs =>
    have hc : c ≠ '=' := by
      refine h c ?_
      have : c ∈ l.reverse := by rw [hr]; simp
      simpa using this
    simp [List.takeWhile_cons, hc]

theorem countTrailingEq_append_eqs {l pads : List Char}
    (hl : ∀ c ∈ l, c ≠ '=') (hp : ∀ c ∈ pads, c = '=') :
    countTrailingEq (l ++ pads) = pads.length := by
  have h0 : countTrailingEq l = 0 := countTrailingEq_no_eq hl
  unfold countTrailingEq at h0 ⊢
  rw [List.reverse_append,
    List.takeWhile_append_of_pos (by
      intro c hc
      have := hp c (by simpa using hc)
      simp [this])]
  simp [h0]

theorem encode_ne_eq (a : Alphabet) (bytes : List Nat)
    (h : ∀ b ∈ bytes, b < 256) :
    ∀ c ∈ encodeBase64Fallback bytes a true, c ≠ '=' := by
  intro c hc
  exact isB64Char_ne_eq a c (List.all_eq_true.mp (encode_all_b64 a bytes h) c hc)

theorem countTrailingEq_encode (a : Alphabet) (p : Bool) (bytes : List Nat)
    (h : ∀ b ∈ bytes, b < 256) :
    countTrailingEq (encodeBase64Fallback bytes a p)
      = if p then 0 else (padOf (bytes.length % 3)).length := by
  cases p with
  | true => simpa using countTrailingEq_no_eq (encode_ne_eq a bytes h)
  | false =>
    rw [encode_split]
    simpa using countTrailingEq_append_eqs (encode_ne_eq a bytes h)
      (padOf_all_eq (bytes.length % 3))

/-- Stripping the (0, 1 or 2) trailing padding characters off the encoder's
output recovers exactly its unpadded data characters. -/
theorem stripped_encode (a : Alphabet) (p : Bool) (bytes : List Nat)
    (h : ∀ b ∈ bytes, b < 256) :
    (encodeBase64Fallback bytes a p).take ((encodeBase64Fallback bytes a p).length
        - min (countTrailingEq (encodeBase64Fallback bytes a p)) 2)
      = encodeBase64Fallback bytes a true := by
  rw [countTrailingEq_encode a p bytes h]
  cases p with
  | true => simp
  | false =>
    have hle := padOf_length_le (bytes.length % 3)
    rw [encode_split]
    simp only [if_neg Bool.false_ne_true, List.length_append]
    have hmin : min (padOf (bytes.length % 3)).length 2
        = (padOf (bytes.length % 3)).length := by omega
    rw [hmin]
    have : (encodeBase64Fallback bytes a true).length
        + (padOf (bytes.length % 3)).length
        - (padOf (bytes.length % 3)).length
        = (encodeBase64Fallback bytes a true).length := by omega
    rw [this, List.take_left']
    rfl

-- #endregion

/-- C1: for every byte buffer, both alphabets and both padding settings,
decoding the encoding with the same alphabet and default (`loose`) last
chunk handling returns the original bytes. -/
theorem c1_base64_roundtrip (bytes : List Nat) (a : Alphabet) (p : Bool)
    (h : ∀ b ∈ bytes, b < 256) :
    decodeBase64Fallback (encodeBase64Fallback bytes a p) a .loose = .ok bytes := by
  have hstrip := stripped_encode a p bytes h
  have hall := encode_all_b64 a bytes h
  have hlen := encode_true_length a bytes
  unfold decodeBase64Fallback
  simp only [hstrip, hall]
  have hb1 : (LastChunk.loose == LastChunk.strict) = false := by decide
  have hb2 : (LastChunk.loose == LastChunk.stop) = false := by decide
  rcases (by omega : bytes.length % 3 = 0 ∨ bytes.length % 3 = 1 ∨ bytes.length % 3 = 2)
    with h3 | h3 | h3
  · have hlen' := hlen
    rw [h3] at hlen'
    norm_num at hlen'
    have hL : (encodeBase64Fallback bytes a true).length % 4 = 0 := by omega
    simp [hb1, hb2, hL, decodeChunks_encode a bytes h false (Or.inr h3)]
  · have hlen' := hlen
    rw [h3] at hlen'
    norm_num at hlen'
    have hL : (encodeBase64Fallback bytes a true).length % 4 = 2 := by omega
    simp [hb1, hb2, hL, decodeChunks_encode a bytes h true (Or.inl rfl)]
  · have hlen' := hlen
    rw [h3] at hlen'
    norm_num at hlen'
    have hL : (encodeBase64Fallback bytes a true).length % 4 = 3 := by omega
    simp [hb1, hb2, hL, decodeChunks_encode a bytes h true (Or.inl rfl)]

/-- Witness for C1 at the repository's own "Hello" test vector. -/
theorem c1_base64_roundtrip_witness :
    decodeBase64Fallback
        (encodeBase64Fallback [72, 101, 108, 108, 111] .base64url true)
        .base64url .loose
      = .ok [72, 101, 108, 108, 111] :=
  c1_base64_roundtrip [72, 101, 108, 108, 111] .base64url true (by decide)

-- #region Base64 decode: structural facts used by C4, C5, C6, C9

theorem countTrailingEq_le (l : List Char) : countTrailingEq l ≤ l.length := by
  unfold countTrailingEq
  calc (l.reverse.takeWhile (· == '=')).length
      ≤ l.reverse.length := (List.takeWhile_sublist _).length_le
    _ = l.length := List.length_reverse l

/-- Without `decodeExtra`, the chunk loop emits 3 bytes per complete
4-character group and nothing else. -/
theorem decodeChunks_false_length (a : Alphabet) :
    ∀ l : List Char, (decodeChunks a false l).length = 3 * (l.length / 4) := by
  refine fourStep_induction _ ?_ ?_ ?_ ?_ ?_
  · simp [decodeChunks]
  · intro x; simp [decodeChunks]
  · intro x y; simp [decodeChunks]
  · intro x y z; simp [decodeChunks]
  · intro x y z w rest ih
    simp only [decodeChunks, List.length_cons, ih]
    omega

/-- With `decodeExtra`, the chunk loop emits the same complete-group bytes
plus `remainder - 1` extra bytes from the 2- or 3-character leftover. -/
theorem decodeChunks_split (a : Alphabet) :
    ∀ l : List Char, ∃ extra,
      decodeChunks a true l = decodeChunks a false l ++ extra
      ∧ extra.length = (if l.length % 4 ≤ 1 then 0 else l.length % 4 - 1) := by
  refine fourStep_induction _ ?_ ?_ ?_ ?_ ?_
  · exact ⟨[], by simp [decodeChunks]⟩
  · intro x; exact ⟨[], by simp [decodeChunks]⟩
  · intro x y
    refine ⟨[(b64Lookup a x <<< 2) ||| (b64Lookup a y >>> 4)], ?_⟩
    simp [decodeChunks]
  · intro x y z
    refine ⟨[(b64Lookup a x <<< 2) ||| (b64Lookup a y >>> 4),
      ((b64Lookup a y &&& 15) <<< 4) ||| (b64Lookup a z >>> 2)], ?_⟩
    simp [decodeChunks]
  · intro x y z w rest ih
    obtain ⟨extra, hsplit, hlen⟩ := ih
    refine ⟨extra, ?_, ?_⟩
    · simp only [decodeChunks, hsplit, List.cons_append, List.append_assoc]
    · rw [hlen]
      have : (x :: y :: z :: w :: rest).length % 4 = rest.length % 4 := by
        simp only [List.length_cons]; omega
      rw [this]

-- #endregion

/-- C5: an input whose length after stripping the (at most two) trailing
padding characters is ≡ 1 (mod 4) fails with a `MalformedEncoding`
condition in every `lastChunkHandling` mode. -/
theorem c5_remainder_one_fails (base64 : List Char) (a : Alphabet) (m : LastChunk)
    (h : (base64.length - min (countTrailingEq base64) 2) % 4 = 1) :
    ∃ msg, decodeBase64Fallback base64 a m = .error (.malformedEncoding msg) := by
  have hpc : min (countTrailingEq base64) 2 ≤ base64.length := by
    have := countTrailingEq_le base64
    omega
  have hsl : (base64.take (base64.length - min (countTrailingEq base64) 2)).length
      = base64.length - min (countTrailingEq base64) 2 := by
    rw [List.length_take]
    omega
  unfold decodeBase64Fallback
  simp only [hsl]
  split
  · exact ⟨_, rfl⟩
  · split
    · exact ⟨_, rfl⟩
    · rename_i hcond
      exfalso
      apply hcond
      simp [h]

/-- Witness for C5 at `"QQQQQ"` (five data characters). -/
theorem c5_remainder_one_fails_witness :
    (['Q', 'Q', 'Q', 'Q', 'Q'].length
        - min (countTrailingEq ['Q', 'Q', 'Q', 'Q', 'Q']) 2) % 4 = 1
    ∧ ∃ msg, decodeBase64Fallback ['Q', 'Q', 'Q', 'Q', 'Q'] .base64 .strict
        = .error (.malformedEncoding msg) :=
  ⟨by decide, c5_remainder_one_fails ['Q', 'Q', 'Q', 'Q', 'Q'] .base64 .strict (by decide)⟩

/-- Evaluation of the decoder on an entirely-valid, unpadded input whose
length is not a multiple of four (an incomplete final chunk): `strict`
fails, `loose` decodes the leftover, `stop-before-partial` drops it. -/
theorem decode_nopad_eval (base64 : List Char) (a : Alphabet) (m : LastChunk)
    (hall : base64.all (isB64Char a) = true)
    (hrem0 : base64.length % 4 ≠ 0) (hrem1 : base64.length % 4 ≠ 1) :
    decodeBase64Fallback base64 a m =
      if m = .strict then
        .error (.malformedEncoding
          "The base64 input terminates with a single character, excluding padding (=)")
      else .ok (decodeChunks a (m == .loose) base64) := by
  have hne : ∀ c ∈ base64, c ≠ '=' :=
    fun c hc => isB64Char_ne_eq a c (List.all_eq_true.mp hall c hc)
  have hct : countTrailingEq base64 = 0 := countTrailingEq_no_eq hne
  unfold decodeBase64Fallback
  simp only [hct, Nat.zero_min, Nat.sub_zero, List.take_length, hall]
  cases m with
  | loose =>
    have h1 : (base64.length % 4 != 0) = true := by simp [hrem0]
    simp [hrem0, hrem1, h1,
      (by decide : (LastChunk.loose == LastChunk.stop) = false)]
  | strict => simp [hrem0, hrem1]
  | stop =>
    simp [hrem0, hrem1,
      (by decide : (LastChunk.stop == LastChunk.loose) = false)]

/-- C4: on a valid unpadded input with a 2- or 3-character incomplete
final chunk, `loose` decodes the leftover into `remainder - 1` extra
bytes after the complete-group bytes, `strict` fails, and
`stop-before-partial` returns exactly the complete-group bytes
(3 per full 4-character group). -/
theorem c4_last_chunk_modes (base64 : List Char) (a : Alphabet)
    (hall : base64.all (isB64Char a) = true)
    (hrem : base64.length % 4 = 2 ∨ base64.length % 4 = 3) :
    (∃ extra, decodeBase64Fallback base64 a .loose
        = .ok (decodeChunks a false base64 ++ extra)
      ∧ extra.length = base64.length % 4 - 1)
    ∧ (∃ msg, decodeBase64Fallback base64 a .strict
        = .error (.malformedEncoding msg))
    ∧ decodeBase64Fallback base64 a .stop = .ok (decodeChunks a false base64)
    ∧ (decodeChunks a false base64).length = 3 * (base64.length / 4) := by
  have hr0 : base64.length % 4 ≠ 0 := by omega
  have hr1 : base64.length % 4 ≠ 1 := by omega
  obtain ⟨extra, hsplit, hlen⟩ := decodeChunks_split a base64
  refine ⟨⟨extra, ?_, ?_⟩, ?_, ?_, decodeChunks_false_length a base64⟩
  · rw [decode_nopad_eval base64 a .loose hall hr0 hr1]
    simp [hsplit]
  · rw [hlen]
    rcases hrem with h | h <;> rw [h] <;> norm_num
  · rw [decode_nopad_eval base64 a .strict hall hr0 hr1]
    rw [if_pos rfl]
    exact ⟨_, rfl⟩
  · rw [decode_nopad_eval base64 a .stop hall hr0 hr1]
    simp [(by decide : (LastChunk.stop == LastChunk.loose) = false)]

/-- Witness for C4 at `"QQQQQQ"` (one full group plus a 2-character
leftover). -/
theorem c4_last_chunk_modes_witness :
    (∃ extra, decodeBase64Fallback ['Q', 'Q', 'Q', 'Q', 'Q', 'Q'] .base64 .loose
        = .ok (decodeChunks .base64 false ['Q', 'Q', 'Q', 'Q', 'Q', 'Q'] ++ extra)
      ∧ extra.length = ['Q', 'Q', 'Q', 'Q', 'Q', 'Q'].length % 4 - 1)
    ∧ (∃ msg, decodeBase64Fallback ['Q', 'Q', 'Q', 'Q', 'Q', 'Q'] .base64 .strict
        = .error (.malformedEncoding msg))
    ∧ decodeBase64Fallback ['Q', 'Q', 'Q', 'Q', 'Q', 'Q'] .base64 .stop
        = .ok (decodeChunks .base64 false ['Q', 'Q', 'Q', 'Q', 'Q', 'Q'])
    ∧ (decodeChunks .base64 false ['Q', 'Q', 'Q', 'Q', 'Q', 'Q']).length
        = 3 * (['Q', 'Q', 'Q', 'Q', 'Q', 'Q'].length / 4) :=
  c4_last_chunk_modes ['Q', 'Q', 'Q', 'Q', 'Q', 'Q'] .base64 (by decide) (by decide)

/-- C9: two data characters plus a single `'='` are accepted without the
padded length reaching a 4-character boundary: `loose` and
`stop-before-partial` decode them to one byte, `strict` accepts them too
whenever the mask-`0x03` padding-bit check passes, and
`decodeBase64("QQ=", strict) = [65]`. -/
theorem c9_single_eq_accepted (c1 c2 : Char) (a : Alphabet)
    (h1 : isB64Char a c1 = true) (h2 : isB64Char a c2 = true) :
    decodeBase64Fallback [c1, c2, '='] a .loose
      = .ok [(b64Lookup a c1 <<< 2) ||| (b64Lookup a c2 >>> 4)]
    ∧ decodeBase64Fallback [c1, c2, '='] a .stop
      = .ok [(b64Lookup a c1 <<< 2) ||| (b64Lookup a c2 >>> 4)]
    ∧ (b64Lookup a c2 &&& 0x03 = 0 →
        decodeBase64Fallback [c1, c2, '='] a .strict
          = .ok [(b64Lookup a c1 <<< 2) ||| (b64Lookup a c2 >>> 4)])
    ∧ decodeBase64Fallback ['Q', 'Q', '='] .base64 .strict = .ok [65] := by
  have hne1 : c1 ≠ '=' := isB64Char_ne_eq a c1 h1
  have hne2 : c2 ≠ '=' := isB64Char_ne_eq a c2 h2
  have hct : countTrailingEq [c1, c2, '='] = 1 := by
    have h := @countTrailingEq_append_eqs [c1, c2] ['=']
      (by
        intro c hc
        rcases (by simpa using hc : c = c1 ∨ c = c2) with rfl | rfl <;> assumption)
      (by simp)
    simpa using h
  refine ⟨?_, ?_, ?_, by decide⟩
  · unfold decodeBase64Fallback
    simp [hct, h1, h2, decodeChunks]
  · unfold decodeBase64Fallback
    simp [hct, h1, h2, decodeChunks]
  · intro hbit
    unfold decodeBase64Fallback
    simp [hct, h1, h2, decodeChunks, hbit]

/-- C6 counterexample: `"Q="` decoded in `strict` mode fails although the
mask-`0x03` unused low bits of its last data character are zero (the
failure comes from the length check, `remainder == 1`), so "fails if and
only if the unused low bits are non-zero" is false as stated. -/
theorem c6_counterexample :
    b64Lookup .base64 'Q' &&& 0x03 = 0
    ∧ decodeBase64Fallback ['Q', '='] .base64 .strict
        = .error (.malformedEncoding
          "The base64 input terminates with a single character, excluding padding (=)") := by
  decide

/-- C6 amended: for a `strict` decode with padding present, *provided the
input passes alphabet validation and its stripped length is not ≡ 1
(mod 4)*, the call fails iff the unused low bits of the last data
character are non-zero, with mask `0x0F` for two stripped `'='` and
`0x03` for one; in particular `"QR=="` fails in `strict` and decodes to
`[65]` in (default) `loose`. -/
theorem c6_strict_padding_bits (base64 : List Char) (a : Alphabet)
    (hpos : 0 < countTrailingEq base64)
    (hall : (base64.take (base64.length - min (countTrailingEq base64) 2)).all
      (isB64Char a) = true)
    (hrem : (base64.length - min (countTrailingEq base64) 2) % 4 ≠ 1) :
    ((decodeBase64Fallback base64 a .strict).isOk = false
      ↔ (match (base64.take (base64.length
            - min (countTrailingEq base64) 2)).getLast? with
          | some c => b64Lookup a c
          | none => 0)
          &&& (if min (countTrailingEq base64) 2 = 2 then 0x0f else 0x03) ≠ 0)
    ∧ (decodeBase64Fallback ['Q', 'R', '=', '='] .base64 .strict).isOk = false
    ∧ decodeBase64Fallback ['Q', 'R', '=', '='] .base64 .loose = .ok [65] := by
  refine ⟨?_, by decide, by decide⟩
  have hle : min (countTrailingEq base64) 2 ≤ base64.length := by
    have := countTrailingEq_le base64
    omega
  have hsl : (base64.take (base64.length - min (countTrailingEq base64) 2)).length
      = base64.length - min (countTrailingEq base64) 2 := by
    rw [List.length_take]
    omega
  have h0 : min (countTrailingEq base64) 2 ≠ 0 := by omega
  have hgt : 0 < min (countTrailingEq base64) 2 := by omega
  have hmask : (if min (countTrailingEq base64) 2 = 2 then (0x0f : Nat) else 0x03)
      = (if 2 ≤ countTrailingEq base64 then 15 else 3) := by
    by_cases h2 : 2 ≤ countTrailingEq base64
    · rw [if_pos (by omega), if_pos h2]
    · rw [if_neg (by omega), if_neg h2]
  rw [hmask]
  unfold decodeBase64Fallback
  simp only [hall, hsl]
  by_cases hbit : (match (base64.take (base64.length
      - min (countTrailingEq base64) 2)).getLast? with
      | some c => b64Lookup a c
      | none => 0)
      &&& (if 2 ≤ countTrailingEq base64 then 15 else 3) = 0
  · simp [hrem, h0, hgt, hbit, Except.isOk, Except.toBool]
  · simp [hrem, h0, hgt, hbit, Except.isOk, Except.toBool]

/-- Witness for C9 at `'Q','Q'` with the standard alphabet. -/
theorem c9_single_eq_accepted_witness :
    decodeBase64Fallback ['Q', 'Q', '='] .base64 .loose
      = .ok [(b64Lookup .base64 'Q' <<< 2) ||| (b64Lookup .base64 'Q' >>> 4)]
    ∧ decodeBase64Fallback ['Q', 'Q', '='] .base64 .stop
      = .ok [(b64Lookup .base64 'Q' <<< 2) ||| (b64Lookup .base64 'Q' >>> 4)]
    ∧ (b64Lookup .base64 'Q' &&& 0x03 = 0 →
        decodeBase64Fallback ['Q', 'Q', '='] .base64 .strict
          = .ok [(b64Lookup .base64 'Q' <<< 2) ||| (b64Lookup .base64 'Q' >>> 4)])
    ∧ decodeBase64Fallback ['Q', 'Q', '='] .base64 .strict = .ok [65] :=
  c9_single_eq_accepted 'Q' 'Q' .base64 (by decide) (by decide)

/-- Witness for C6 (amended) at `"QR=="`. -/
theorem c6_strict_padding_bits_witness :
    (((decodeBase64Fallback ['Q', 'R', '=', '='] .base64 .strict).isOk = false
      ↔ (match (['Q', 'R', '=', '='].take (['Q', 'R', '=', '='].length
            - min (countTrailingEq ['Q', 'R', '=', '=']) 2)).getLast? with
          | some c => b64Lookup .base64 c
          | none => 0)
          &&& (if min (countTrailingEq ['Q', 'R', '=', '=']) 2 = 2
              then 0x0f else 0x03) ≠ 0)
    ∧ (decodeBase64Fallback ['Q', 'R', '=', '='] .base64 .strict).isOk = false
    ∧ decodeBase64Fallback ['Q', 'R', '=', '='] .base64 .loose = .ok [65]) :=
  c6_strict_padding_bits ['Q', 'R', '=', '='] .base64 (by decide) (by decide) (by decide)

-- #region UTF-8 decoder: one-step evaluation lemmas

/-- ASCII byte: emit it and continue. -/
theorem decodeUtf8Loop_cons_ascii (fatal : Bool) (b1 : Nat) (rest : List Nat)
    (h : b1 < 0x80) :
    decodeUtf8Loop fatal (b1 :: rest) = (decodeUtf8Loop fatal rest).map (b1 :: ·) := by
  rw [decodeUtf8Loop]
  rw [if_pos h]

/-- Valid 2-byte sequence: decode it and continue after it. -/
theorem decodeUtf8Loop_cons_good2 (fatal : Bool) (b1 b2 : Nat) (rest : List Nat)
    (h1 : 0xc2 ≤ b1) (h2 : b1 < 0xe0) (h3 : 0x80 ≤ b2) (h4 : b2 ≤ 0xbf) :
    decodeUtf8Loop fatal (b1 :: b2 :: rest)
      = (decodeUtf8Loop fatal rest).map
          ((((b1 &&& 0x1f) <<< 6) ||| (b2 &&& 0x3f)) :: ·) := by
  rw [decodeUtf8Loop]
  rw [if_neg (by omega)]
  rw [show classifyLead b1 = some (2, b1 &&& 0x1f, 0x80, 0xbf) from by
    unfold classifyLead
    rw [if_pos ⟨h1, h2⟩]]
  simp only [List.length_cons]
  rw [if_neg (by omega)]
  simp only [List.take, List.drop]
  rw [show contBytes 0x80 0xbf [b2] (b1 &&& 0x1f)
      = some (((b1 &&& 0x1f) <<< 6) ||| (b2 &&& 0x3f)) from by
    unfold contBytes
    rw [if_neg (by omega)]
    unfold contBytes
    rfl]

/-- Valid 3-byte sequence (first continuation byte within the
lead-dependent boundaries): decode it and continue after it. -/
theorem decodeUtf8Loop_cons_good3 (fatal : Bool) (b1 b2 b3 : Nat) (rest : List Nat)
    (h1 : 0xe0 ≤ b1) (h2 : b1 < 0xf0)
    (hlb : (if b1 = 0xe0 then 0xa0 else 0x80) ≤ b2)
    (hub : b2 ≤ (if b1 = 0xed then 0x9f else 0xbf))
    (h3 : 0x80 ≤ b3) (h4 : b3 ≤ 0xbf) :
    decodeUtf8Loop fatal (b1 :: b2 :: b3 :: rest)
      = (decodeUtf8Loop fatal rest).map
          (((((b1 &&& 0x0f) <<< 6) ||| (b2 &&& 0x3f)) <<< 6 |||
            (b3 &&& 0x3f)) :: ·) := by
  rw [decodeUtf8Loop]
  rw [if_neg (by omega)]
  rw [show classifyLead b1 = some (3, b1 &&& 0x0f,
      if b1 = 0xe0 then 0xa0 else 0x80, if b1 = 0xed then 0x9f else 0xbf) from by
    unfold classifyLead
    rw [if_neg (by omega), if_pos ⟨h1, h2⟩]]
  simp only [List.length_cons]
  rw [if_neg (by omega)]
  simp only [List.take, List.drop]
  rw [show contBytes (if b1 = 0xe0 then 0xa0 else 0x80)
      (if b1 = 0xed then 0x9f else 0xbf) [b2, b3] (b1 &&& 0x0f)
      = some ((((b1 &&& 0x0f) <<< 6) ||| (b2 &&& 0x3f)) <<< 6 |||
          (b3 &&& 0x3f)) from by
    unfold contBytes
    rw [if_neg (by
      push_neg
      exact ⟨hlb, hub⟩)]
    unfold contBytes
    rw [if_neg (by omega)]
    unfold contBytes
    rfl]

/-- Valid 4-byte sequence: decode it and continue after it. -/
theorem decodeUtf8Loop_cons_good4 (fatal : Bool) (b1 b2 b3 b4 : Nat) (rest : List Nat)
    (h1 : 0xf0 ≤ b1) (h2 : b1 < 0xf5)
    (hlb : (if b1 = 0xf0 then 0x90 else 0x80) ≤ b2)
    (hub : b2 ≤ (if b1 = 0xf4 then 0x8f else 0xbf))
    (h3 : 0x80 ≤ b3) (h4 : b3 ≤ 0xbf) (h5 : 0x80 ≤ b4) (h6 : b4 ≤ 0xbf) :
    decodeUtf8Loop fatal (b1 :: b2 :: b3 :: b4 :: rest)
      = (decodeUtf8Loop fatal rest).map
          ((((((b1 &&& 0x07) <<< 6) ||| (b2 &&& 0x3f)) <<< 6 |||
             (b3 &&& 0x3f)) <<< 6 ||| (b4 &&& 0x3f)) :: ·) := by
  rw [decodeUtf8Loop]
  rw [if_neg (by omega)]
  rw [show classifyLead b1 = some (4, b1 &&& 0x07,
      if b1 = 0xf0 then 0x90 else 0x80, if b1 = 0xf4 then 0x8f else 0xbf) from by
    unfold classifyLead
    rw [if_neg (by omega), if_neg (by omega), if_pos ⟨h1, h2⟩]]
  simp only [List.length_cons]
  rw [if_neg (by omega)]
  simp only [List.take, List.drop]
  rw [show contBytes (if b1 = 0xf0 then 0x90 else 0x80)
      (if b1 = 0xf4 then 0x8f else 0xbf) [b2, b3, b4] (b1 &&& 0x07)
      = some (((((b1 &&& 0x07) <<< 6) ||| (b2 &&& 0x3f)) <<< 6 |||
          (b3 &&& 0x3f)) <<< 6 ||| (b4 &&& 0x3f)) from by
    unfold contBytes
    rw [if_neg (by
      push_neg
      exact ⟨hlb, hub⟩)]
    unfold contBytes
    rw [if_neg (by omega)]
    unfold contBytes
    rw [if_neg (by omega)]
    unfold contBytes
    rfl]

/-- A multi-byte lead whose declared length overruns end-of-input: one
replacement character (or the fatal error) for all remaining bytes, which
are never examined. -/
theorem decodeUtf8Loop_cons_trunc (fatal : Bool) (b1 : Nat) (rest : List Nat)
    (needed cp0 lb ub : Nat)
    (hclass : classifyLead b1 = some (needed, cp0, lb, ub))
    (hlen : rest.length + 1 < needed) :
    decodeUtf8Loop fatal (b1 :: rest)
      = if fatal then
          .error (.invalidByteSequence "The encoded data was not valid for encoding utf-8")
        else .ok [0xfffd] := by
  have hb1 : ¬ b1 < 0x80 := by
    intro h
    unfold classifyLead at hclass
    rw [if_neg (by omega), if_neg (by omega), if_neg (by omega)] at hclass
    exact Option.noConfusion hclass
  rw [decodeUtf8Loop, if_neg hb1]
  simp only [hclass]
  rw [if_pos (show needed > rest.length + 1 from by omega)]

-- #endregion

-- #region UTF-8 round-trip

/-- Decoding the encoder's bytes for one scalar value, followed by any
tail, yields that scalar and continues with the tail. -/
theorem decodeLoop_encodeCodePoint (fatal : Bool) (c : Nat) (hc : IsScalar c)
    (tail : List Nat) :
    decodeUtf8Loop fatal (encodeCodePoint c ++ tail)
      = (decodeUtf8Loop fatal tail).map (c :: ·) := by
  obtain ⟨hlt, hsur⟩ := hc
  by_cases h1 : c < 0x80
  · simp only [encodeCodePoint, if_pos h1, List.cons_append, List.nil_append]
    exact decodeUtf8Loop_cons_ascii fatal c tail h1
  · by_cases h2 : c < 0x800
    · -- 2 bytes
      have hb1 : (0xc0 ||| (c >>> 6)) = 0xc0 + c / 64 := by
        rw [sr_six]; exact lor_c0 _ (by omega)
      have hb2 : (0x80 ||| (c &&& 0x3f)) = 0x80 + c % 64 := by
        rw [and_sixtythree]; exact lor_80 _ (by omega)
      simp only [encodeCodePoint, if_neg h1, if_pos h2, hb1, hb2,
        List.cons_append, List.nil_append]
      rw [decodeUtf8Loop_cons_good2 fatal _ _ tail (by omega) (by omega)
        (by omega) (by omega)]
      have hcp : ((0xc0 + c / 64) &&& 0x1f) <<< 6 ||| ((0x80 + c % 64) &&& 0x3f)
          = c := by
        rw [and_thirtyone, and_sixtythree, sl_six_lor _ _ (by omega)]
        omega
      rw [hcp]
    · by_cases h3 : c < 0x10000
      · -- 3 bytes
        have hb1 : (0xe0 ||| (c >>> 12)) = 0xe0 + c / 4096 := by
          rw [sr_twelve]; exact lor_e0 _ (by omega)
        have hb2 : (0x80 ||| ((c >>> 6) &&& 0x3f)) = 0x80 + c / 64 % 64 := by
          rw [sr_six, and_sixtythree]; exact lor_80 _ (by omega)
        have hb3 : (0x80 ||| (c &&& 0x3f)) = 0x80 + c % 64 := by
          rw [and_sixtythree]; exact lor_80 _ (by omega)
        simp only [encodeCodePoint, if_neg h1, if_neg h2, if_pos h3, hb1, hb2, hb3,
          List.cons_append, List.nil_append]
        rw [decodeUtf8Loop_cons_good3 fatal _ _ _ tail (by omega) (by omega)
          (by
            by_cases hq : c / 4096 = 0
            · rw [if_pos (by omega)]
              omega
            · rw [if_neg (by omega)]
              omega)
          (by
            by_cases hq : c / 4096 = 13
            · rw [if_pos (by omega)]
              omega
            · rw [if_neg (by omega)]
              omega)
          (by omega) (by omega)]
        have hcp : (((0xe0 + c / 4096) &&& 0x0f) <<< 6 |||
              ((0x80 + c / 64 % 64) &&& 0x3f)) <<< 6 |||
              ((0x80 + c % 64) &&& 0x3f) = c := by
          rw [and_fifteen, and_sixtythree, and_sixtythree,
            sl_six_lor _ _ (by omega), sl_six_lor _ _ (by omega)]
          omega
        rw [hcp]
      · -- 4 bytes
        have hb1 : (0xf0 ||| (c >>> 18)) = 0xf0 + c / 262144 := by
          rw [sr_eighteen]; exact lor_f0 _ (by omega)
        have hb2 : (0x80 ||| ((c >>> 12) &&& 0x3f)) = 0x80 + c / 4096 % 64 := by
          rw [sr_twelve, and_sixtythree]; exact lor_80 _ (by omega)
        have hb3 : (0x80 ||| ((c >>> 6) &&& 0x3f)) = 0x80 + c / 64 % 64 := by
          rw [sr_six, and_sixtythree]; exact lor_80 _ (by omega)
        have hb4 : (0x80 ||| (c &&& 0x3f)) = 0x80 + c % 64 := by
          rw [and_sixtythree]; exact lor_80 _ (by omega)
        simp only [encodeCodePoint, if_neg h1, if_neg h2, if_neg h3, hb1, hb2,
          hb3, hb4, List.cons_append, List.nil_append]
        rw [decodeUtf8Loop_cons_good4 fatal _ _ _ _ tail (by omega) (by omega)
          (by
            by_cases hq : c / 262144 = 0
            · rw [if_pos (by omega)]
              omega
            · rw [if_neg (by omega)]
              omega)
          (by
            by_cases hq : c / 262144 = 4
            · rw [if_pos (by omega)]
              omega
            · rw [if_neg (by omega)]
              omega)
          (by omega) (by omega) (by omega) (by omega)]
        have hcp : ((((0xf0 + c / 262144) &&& 0x07) <<< 6 |||
              ((0x80 + c / 4096 % 64) &&& 0x3f)) <<< 6 |||
              ((0x80 + c / 64 % 64) &&& 0x3f)) <<< 6 |||
              ((0x80 + c % 64) &&& 0x3f) = c := by
          rw [and_seven, and_sixtythree, and_sixtythree, and_sixtythree,
            sl_six_lor _ _ (by omega), sl_six_lor _ _ (by omega),
            sl_six_lor _ _ (by omega)]
          omega
        rw [hcp]

/-- Decoding an encoded scalar sequence followed by any tail decodes the
sequence and continues with the tail. -/
theorem decodeLoop_encode_append (fatal : Bool) :
    ∀ s : List Nat, ScalarList s → ∀ tail : List Nat,
      decodeUtf8Loop fatal (encodeUtf8Fallback s ++ tail)
        = (decodeUtf8Loop fatal tail).map (s ++ ·) := by
  intro s
  induction s with
  | nil =>
    intro _ tail
    simp only [encodeUtf8Fallback, List.nil_append]
    cases decodeUtf8Loop fatal tail <;> simp [Except.map]
  | cons c s' ih =>
    intro hs tail
    have hc : IsScalar c := hs c (by simp)
    have hs' : ScalarList s' := fun d hd => hs d (by simp [hd])
    calc decodeUtf8Loop fatal (encodeUtf8Fallback (c :: s') ++ tail)
        = decodeUtf8Loop fatal (encodeCodePoint c ++ (encodeUtf8Fallback s' ++ tail)) := by
          simp only [encodeUtf8Fallback, List.append_assoc]
      _ = (decodeUtf8Loop fatal (encodeUtf8Fallback s' ++ tail)).map (c :: ·) :=
          decodeLoop_encodeCodePoint fatal c hc _
      _ = ((decodeUtf8Loop fatal tail).map (s' ++ ·)).map (c :: ·) := by
          rw [ih hs' tail]
      _ = (decodeUtf8Loop fatal tail).map ((c :: s') ++ ·) := by
          cases decodeUtf8Loop fatal tail <;> simp [Except.map]

/-- Decoding an encoded scalar sequence succeeds and returns it, in both
fatal modes. -/
theorem decodeLoop_encode (fatal : Bool) (s : List Nat) (hs : ScalarList s) :
    decodeUtf8Loop fatal (encodeUtf8Fallback s) = .ok s := by
  have h := decodeLoop_encode_append fatal s hs []
  simpa [decodeUtf8Loop, Except.map] using h

-- #endregion

/-- C2 counterexample: the scalar sequence `[U+FEFF]` (a string that is
just a BOM) does not round-trip under default options, because default
decoding strips a leading BOM: the round-trip returns the empty text. -/
theorem c2_counterexample :
    ScalarList [0xfeff]
    ∧ decodeUtf8Fallback (encodeUtf8Fallback [0xfeff]) false false = .ok []
    ∧ (Except.ok [] : Except CodecError (List Nat)) ≠ .ok [0xfeff] := by
  refine ⟨by decide, ?_, by decide⟩
  rw [show encodeUtf8Fallback [0xfeff] = [0xef, 0xbb, 0xbf] from by decide]
  norm_num [decodeUtf8Fallback, decodeUtf8Loop, classifyLead, contBytes]
  all_goals decide

/-- C2 amended: for every scalar-value sequence (a string with no unpaired
surrogates) *that does not start with U+FEFF*, decoding the encoding with
default options returns the original text. -/
theorem c2_utf8_roundtrip (s : List Nat) (hs : ScalarList s)
    (hbom : s.head? ≠ some 0xfeff) :
    decodeUtf8Fallback (encodeUtf8Fallback s) false false = .ok s := by
  unfold decodeUtf8Fallback
  rw [decodeLoop_encode false s hs]
  have hb : (s.head? == some 0xfeff) = false := beq_eq_false_iff_ne.mpr hbom
  simp [Except.map, hb]

/-- Witness for C2 (amended) at the text `"Hi"`. -/
theorem c2_utf8_roundtrip_witness :
    decodeUtf8Fallback (encodeUtf8Fallback [0x48, 0x69]) false false
      = .ok [0x48, 0x69] :=
  c2_utf8_roundtrip [0x48, 0x69] (by decide) (by decide)

/-- C3, evaluated at the failing input `[0xE0, 0xA0, 0x41]`: the lead
`0xE0` starts a 3-byte sequence whose first continuation byte `0xA0` is in
range but whose second continuation byte `0x41` is not; the code emits one
replacement for the failed attempt and then *resumes at the first
continuation byte* (`i += 1`), re-decoding `0xA0` as a bad lead into a
second replacement - two replacement characters for the single malformed
sequence `E0 A0`, and decoding does not resume at the bad continuation
byte `0x41` as the claim states. -/
theorem c3_code_eval :
    decodeUtf8Fallback [0xe0, 0xa0, 0x41] false false
      = .ok [0xfffd, 0xfffd, 0x41] := by
  norm_num [decodeUtf8Fallback, decodeUtf8Loop, classifyLead, contBytes]
  all_goals decide

/-- C8: a buffer beginning with the exact bytes `EF BB BF` decodes, with
`ignoreBOM := false` (the default), to the decode of the remaining bytes
with no output character for the BOM; with `ignoreBOM := true` the same
three bytes decode to a leading U+FEFF; in particular on
`[EF BB BF 48 69]` the results are `"Hi"` and `"﻿Hi"`. -/
theorem c8_bom_handling (rest out : List Nat)
    (h : decodeUtf8Loop false rest = .ok out) :
    decodeUtf8Fallback (0xef :: 0xbb :: 0xbf :: rest) false false = .ok out
    ∧ decodeUtf8Fallback (0xef :: 0xbb :: 0xbf :: rest) false true
        = .ok (0xfeff :: out)
    ∧ decodeUtf8Fallback [0xef, 0xbb, 0xbf, 0x48, 0x69] false false
        = .ok [0x48, 0x69]
    ∧ decodeUtf8Fallback [0xef, 0xbb, 0xbf, 0x48, 0x69] false true
        = .ok [0xfeff, 0x48, 0x69] := by
  have hstep := decodeLoop_encodeCodePoint false 0xfeff (by decide) rest
  rw [show encodeCodePoint 0xfeff = [0xef, 0xbb, 0xbf] from by decide] at hstep
  have hloop : decodeUtf8Loop false (0xef :: 0xbb :: 0xbf :: rest)
      = .ok (0xfeff :: out) := by
    rw [show (0xef :: 0xbb :: 0xbf :: rest) = [0xef, 0xbb, 0xbf] ++ rest from rfl,
      hstep, h]
    rfl
  refine ⟨?_, ?_, ?_, ?_⟩
  · unfold decodeUtf8Fallback
    rw [hloop]
    simp [Except.map]
  · unfold decodeUtf8Fallback
    rw [hloop]
    simp [Except.map]
  · norm_num [decodeUtf8Fallback, decodeUtf8Loop, classifyLead, contBytes]
    all_goals decide
  · norm_num [decodeUtf8Fallback, decodeUtf8Loop, classifyLead, contBytes]
    all_goals decide

/-- Witness for C8 with `rest = [0x48, 0x69]`. -/
theorem c8_bom_handling_witness :
    decodeUtf8Fallback (0xef :: 0xbb :: 0xbf :: [0x48, 0x69]) false false
      = .ok [0x48, 0x69]
    ∧ decodeUtf8Fallback (0xef :: 0xbb :: 0xbf :: [0x48, 0x69]) false true
        = .ok (0xfeff :: [0x48, 0x69])
    ∧ decodeUtf8Fallback [0xef, 0xbb, 0xbf, 0x48, 0x69] false false
        = .ok [0x48, 0x69]
    ∧ decodeUtf8Fallback [0xef, 0xbb, 0xbf, 0x48, 0x69] false true
        = .ok [0xfeff, 0x48, 0x69] :=
  c8_bom_handling [0x48, 0x69] [0x48, 0x69]
    (by
      norm_num [decodeUtf8Loop, classifyLead, contBytes]
      all_goals decide)

/-- C10: in non-fatal mode, after any valid prefix, a multi-byte lead
whose declared length overruns the end of input collapses all remaining
bytes into exactly one replacement character and decoding stops - the
bytes after the lead are never examined or re-decoded; in particular
`decodeUtf8([0xE0, 0x41]) = "�"`. -/
theorem c10_truncated_sequence (s : List Nat) (hs : ScalarList s)
    (b1 : Nat) (rest : List Nat) (needed cp0 lb ub : Nat)
    (hclass : classifyLead b1 = some (needed, cp0, lb, ub))
    (hlen : rest.length + 1 < needed) :
    decodeUtf8Loop false (encodeUtf8Fallback s ++ b1 :: rest)
      = .ok (s ++ [0xfffd])
    ∧ decodeUtf8Fallback [0xe0, 0x41] false false = .ok [0xfffd] := by
  constructor
  · rw [decodeLoop_encode_append false s hs (b1 :: rest),
      decodeUtf8Loop_cons_trunc false b1 rest needed cp0 lb ub hclass hlen]
    simp [Except.map]
  · norm_num [decodeUtf8Fallback, decodeUtf8Loop, classifyLead, contBytes]
    all_goals decide

/-- Witness for C10 at the empty prefix and input `[0xE0, 0x41]`. -/
theorem c10_truncated_sequence_witness :
    decodeUtf8Loop false (encodeUtf8Fallback [] ++ 0xe0 :: [0x41])
      = .ok ([] ++ [0xfffd])
    ∧ decodeUtf8Fallback [0xe0, 0x41] false false = .ok [0xfffd] :=
  c10_truncated_sequence [] (by decide) 0xe0 [0x41] 3 0 0xa0 0xbf
    (by decide) (by decide)

-- #region UTF-8 fatal mode: accepted sequences are exactly encodings

/-- A 2-byte sequence accepted by the decoder decodes to a scalar value
that re-encodes to exactly those two bytes. -/
theorem class2_invert (b1 b2 : Nat)
    (h1 : 0xc2 ≤ b1) (h2 : b1 < 0xe0) (h3 : 0x80 ≤ b2) (h4 : b2 ≤ 0xbf) :
    IsScalar (((b1 &&& 0x1f) <<< 6) ||| (b2 &&& 0x3f))
    ∧ encodeCodePoint (((b1 &&& 0x1f) <<< 6) ||| (b2 &&& 0x3f)) = [b1, b2] := by
  have hv : ((b1 &&& 0x1f) <<< 6) ||| (b2 &&& 0x3f) = (b1 % 32) * 64 + b2 % 64 := by
    rw [and_thirtyone, and_sixtythree, sl_six_lor _ _ (by omega)]
  rw [hv]
  refine ⟨⟨by omega, by omega⟩, ?_⟩
  unfold encodeCodePoint
  rw [if_neg (by omega), if_pos (by omega), sr_six, and_sixtythree,
    lor_c0 _ (by omega), lor_80 _ (by omega)]
  simp only [List.cons.injEq]
  refine ⟨by omega, by omega, trivial⟩

/-- A 3-byte sequence accepted by the decoder (first continuation within
the lead-dependent boundaries) decodes to a scalar value - neither
overlong nor a surrogate - that re-encodes to exactly those three bytes. -/
theorem class3_invert (b1 b2 b3 : Nat)
    (h1 : 0xe0 ≤ b1) (h2 : b1 < 0xf0)
    (hl : (if b1 = 0xe0 then 0xa0 else 0x80) ≤ b2)
    (hu : b2 ≤ (if b1 = 0xed then 0x9f else 0xbf))
    (h3 : 0x80 ≤ b3) (h4 : b3 ≤ 0xbf) :
    IsScalar ((((b1 &&& 0x0f) <<< 6) ||| (b2 &&& 0x3f)) <<< 6 ||| (b3 &&& 0x3f))
    ∧ encodeCodePoint ((((b1 &&& 0x0f) <<< 6) ||| (b2 &&& 0x3f)) <<< 6 |||
        (b3 &&& 0x3f)) = [b1, b2, b3] := by
  have hb2ge : 0x80 ≤ b2 := by
    by_cases hq0 : b1 = 0xe0
    · rw [if_pos hq0] at hl; omega
    · rw [if_neg hq0] at hl; omega
  have hb2le : b2 ≤ 0xbf := by
    by_cases hqd : b1 = 0xed
    · rw [if_pos hqd] at hu; omega
    · rw [if_neg hqd] at hu; omega
  have hv : (((b1 &&& 0x0f) <<< 6) ||| (b2 &&& 0x3f)) <<< 6 ||| (b3 &&& 0x3f)
      = (b1 % 16) * 4096 + (b2 % 64) * 64 + b3 % 64 := by
    rw [and_fifteen, and_sixtythree, and_sixtythree,
      sl_six_lor _ _ (by omega), sl_six_lor _ _ (by omega)]
    omega
  have hbounds : 0x800 ≤ (b1 % 16) * 4096 + (b2 % 64) * 64 + b3 % 64
      ∧ ¬(0xd800 ≤ (b1 % 16) * 4096 + (b2 % 64) * 64 + b3 % 64
          ∧ (b1 % 16) * 4096 + (b2 % 64) * 64 + b3 % 64 ≤ 0xdfff) := by
    by_cases hq0 : b1 = 0xe0
    · rw [if_pos hq0] at hl
      rw [if_neg (by omega)] at hu
      constructor <;> omega
    · rw [if_neg hq0] at hl
      by_cases hqd : b1 = 0xed
      · rw [if_pos hqd] at hu
        constructor <;> omega
      · rw [if_neg hqd] at hu
        constructor <;> omega
  rw [hv]
  obtain ⟨hge, hnsur⟩ := hbounds
  refine ⟨⟨by omega, hnsur⟩, ?_⟩
  unfold encodeCodePoint
  rw [if_neg (by omega), if_neg (by omega), if_pos (by omega),
    sr_twelve, sr_six, and_sixtythree, and_sixtythree, lor_e0 _ (by omega),
    lor_80 _ (by omega), lor_80 _ (by omega)]
  simp only [List.cons.injEq]
  refine ⟨by omega, by omega, by omega, trivial⟩

/-- A 4-byte sequence accepted by the decoder decodes to a scalar value
in `[0x10000, 0x110000)` that re-encodes to exactly those four bytes. -/
theorem class4_invert (b1 b2 b3 b4 : Nat)
    (h1 : 0xf0 ≤ b1) (h2 : b1 < 0xf5)
    (hl : (if b1 = 0xf0 then 0x90 else 0x80) ≤ b2)
    (hu : b2 ≤ (if b1 = 0xf4 then 0x8f else 0xbf))
    (h3 : 0x80 ≤ b3) (h4 : b3 ≤ 0xbf) (h5 : 0x80 ≤ b4) (h6 : b4 ≤ 0xbf) :
    IsScalar (((((b1 &&& 0x07) <<< 6) ||| (b2 &&& 0x3f)) <<< 6 |||
        (b3 &&& 0x3f)) <<< 6 ||| (b4 &&& 0x3f))
    ∧ encodeCodePoint (((((b1 &&& 0x07) <<< 6) ||| (b2 &&& 0x3f)) <<< 6 |||
        (b3 &&& 0x3f)) <<< 6 ||| (b4 &&& 0x3f)) = [b1, b2, b3, b4] := by
  have hb2ge : 0x80 ≤ b2 := by
    by_cases hq0 : b1 = 0xf0
    · rw [if_pos hq0] at hl; omega
    · rw [if_neg hq0] at hl; omega
  have hb2le : b2 ≤ 0xbf := by
    by_cases hq4 : b1 = 0xf4
    · rw [if_pos hq4] at hu; omega
    · rw [if_neg hq4] at hu; omega
  have hv : ((((b1 &&& 0x07) <<< 6) ||| (b2 &&& 0x3f)) <<< 6 |||
        (b3 &&& 0x3f)) <<< 6 ||| (b4 &&& 0x3f)
      = (b1 % 8) * 262144 + (b2 % 64) * 4096 + (b3 % 64) * 64 + b4 % 64 := by
    rw [and_seven, and_sixtythree, and_sixtythree, and_sixtythree,
      sl_six_lor _ _ (by omega), sl_six_lor _ _ (by omega),
      sl_six_lor _ _ (by omega)]
    omega
  have hbounds : 0x10000 ≤ (b1 % 8) * 262144 + (b2 % 64) * 4096
        + (b3 % 64) * 64 + b4 % 64
      ∧ (b1 % 8) * 262144 + (b2 % 64) * 4096 + (b3 % 64) * 64 + b4 % 64
        < 0x110000 := by
    constructor
    · by_cases hq0 : b1 = 0xf0
      · rw [if_pos hq0] at hl; omega
      · rw [if_neg hq0] at hl; omega
    · by_cases hq4 : b1 = 0xf4
      · rw [if_pos hq4] at hu; omega
      · rw [if_neg hq4] at hu; omega
  rw [hv]
  obtain ⟨hge, hlt⟩ := hbounds
  refine ⟨⟨hlt, by omega⟩, ?_⟩
  unfold encodeCodePoint
  rw [if_neg (by omega), if_neg (by omega), if_neg (by omega),
    sr_eighteen, sr_twelve, sr_six, and_sixtythree, and_sixtythree,
    and_sixtythree, lor_f0 _ (by omega), lor_80 _ (by omega),
    lor_80 _ (by omega), lor_80 _ (by omega)]
  simp only [List.cons.injEq]
  refine ⟨by omega, by omega, by omega, by omega, trivial⟩

-- #endregion

/-- Inversion of fatal-mode decoding: an accepted byte buffer is exactly
the encoding of the scalar sequence it returns. -/
theorem fatal_ok_encode :
    ∀ bytes u : List Nat, decodeUtf8Loop true bytes = .ok u →
      ScalarList u ∧ encodeUtf8Fallback u = bytes := by
  have key : ∀ (n : Nat) (bytes : List Nat), bytes.length ≤ n → ∀ u,
      decodeUtf8Loop true bytes = .ok u →
      ScalarList u ∧ encodeUtf8Fallback u = bytes := by
    intro n
    induction n with
    | zero =>
      intro bytes hlen u h
      cases bytes with
      | nil =>
        rw [decodeUtf8Loop] at h
        cases h
        exact ⟨fun c hc => absurd hc (by simp), rfl⟩
      | cons b bs => simp at hlen
    | succ n ih =>
      intro bytes hlen u h
      cases bytes with
      | nil =>
        rw [decodeUtf8Loop] at h
        cases h
        exact ⟨fun c hc => absurd hc (by simp), rfl⟩
      | cons b1 rest =>
        have hlen' : rest.length ≤ n := by
          simp at hlen
          omega
        rw [decodeUtf8Loop] at h
        by_cases hb1 : b1 < 0x80
        · rw [if_pos hb1] at h
          cases hres : decodeUtf8Loop true rest with
          | error e =>
            rw [hres] at h
            exact absurd h (by simp [Except.map])
          | ok u' =>
            rw [hres] at h
            simp only [Except.map, Except.ok.injEq] at h
            subst h
            obtain ⟨hs', henc'⟩ := ih rest hlen' u' hres
            refine ⟨?_, ?_⟩
            · intro c hc
              rcases List.mem_cons.mp hc with rfl | hc
              · exact ⟨by omega, by omega⟩
              · exact hs' c hc
            · simp only [encodeUtf8Fallback, henc']
              unfold encodeCodePoint
              rw [if_pos hb1]
              rfl
        · rw [if_neg hb1] at h
          cases hclass : classifyLead b1 with
          | none =>
            simp only [hclass] at h
            simp at h
          | some tup =>
            obtain ⟨needed, cp0, lb, ub⟩ := tup
            simp only [hclass] at h
            by_cases htr : needed > rest.length + 1
            · rw [if_pos htr] at h
              simp at h
            · rw [if_neg htr] at h
              cases hcont : contBytes lb ub (rest.take (needed - 1)) cp0 with
              | none =>
                simp only [hcont] at h
                simp at h
              | some cp =>
                simp only [hcont] at h
                cases hres : decodeUtf8Loop true (rest.drop (needed - 1)) with
                | error e =>
                  rw [hres] at h
                  exact absurd h (by simp [Except.map])
                | ok u' =>
                  rw [hres] at h
                  simp only [Except.map, Except.ok.injEq] at h
                  subst h
                  have hlend : (rest.drop (needed - 1)).length ≤ n := by
                    simp only [List.length_drop]
                    omega
                  obtain ⟨hs', henc'⟩ := ih _ hlend u' hres
                  unfold classifyLead at hclass
                  by_cases hc2 : 0xc2 ≤ b1 ∧ b1 < 0xe0
                  · rw [if_pos hc2] at hclass
                    simp only [Option.some.injEq, Prod.mk.injEq] at hclass
                    obtain ⟨hn, hcp0, hlb, hub⟩ := hclass
                    subst hn
                    subst hcp0
                    subst hlb
                    subst hub
                    cases rest with
                    | nil => simp at htr
                    | cons b2 rest' =>
                      rw [show List.take (2 - 1) (b2 :: rest') = [b2] from by simp]
                        at hcont
                      unfold contBytes at hcont
                      by_cases hb2 : b2 < 0x80 ∨ b2 > 0xbf
                      · rw [if_pos hb2] at hcont
                        exact absurd hcont (by simp)
                      · rw [if_neg hb2] at hcont
                        unfold contBytes at hcont
                        simp only [Option.some.injEq] at hcont
                        subst hcont
                        push_neg at hb2
                        obtain ⟨hinv_s, hinv_e⟩ :=
                          class2_invert b1 b2 hc2.1 hc2.2 hb2.1 (by omega)
                        rw [show List.drop (2 - 1) (b2 :: rest') = rest' from by simp]
                          at henc'
                        refine ⟨?_, ?_⟩
                        · intro c hc
                          rcases List.mem_cons.mp hc with rfl | hc
                          · exact hinv_s
                          · exact hs' c hc
                        · simp only [encodeUtf8Fallback, hinv_e, henc']
                          rfl
                  · rw [if_neg hc2] at hclass
                    by_cases hc3 : 0xe0 ≤ b1 ∧ b1 < 0xf0
                    · rw [if_pos hc3] at hclass
                      simp only [Option.some.injEq, Prod.mk.injEq] at hclass
                      obtain ⟨hn, hcp0, hlb, hub⟩ := hclass
                      subst hn
                      subst hcp0
                      subst hlb
                      subst hub
                      cases rest with
                      | nil => simp at htr
                      | cons b2 rtl =>
                        cases rtl with
                        | nil => simp at htr
                        | cons b3 rest' =>
                          rw [show List.take (3 - 1) (b2 :: b3 :: rest')
                              = [b2, b3] from by simp] at hcont
                          unfold contBytes at hcont
                          by_cases hb2 : b2 < (if b1 = 0xe0 then 0xa0 else 0x80)
                              ∨ b2 > (if b1 = 0xed then 0x9f else 0xbf)
                          · rw [if_pos hb2] at hcont
                            exact absurd hcont (by simp)
                          · rw [if_neg hb2] at hcont
                            unfold contBytes at hcont
                            by_cases hb3 : b3 < 0x80 ∨ b3 > 0xbf
                            · rw [if_pos hb3] at hcont
                              exact absurd hcont (by simp)
                            · rw [if_neg hb3] at hcont
                              unfold contBytes at hcont
                              simp only [Option.some.injEq] at hcont
                              subst hcont
                              push_neg at hb2 hb3
                              obtain ⟨hinv_s, hinv_e⟩ :=
                                class3_invert b1 b2 b3 hc3.1 hc3.2
                                  hb2.1 hb2.2 hb3.1 hb3.2
                              rw [show List.drop (3 - 1) (b2 :: b3 :: rest')
                                  = rest' from by simp] at henc'
                              refine ⟨?_, ?_⟩
                              · intro c hc
                                rcases List.mem_cons.mp hc with rfl | hc
                                · exact hinv_s
                                · exact hs' c hc
                              · simp only [encodeUtf8Fallback, hinv_e, henc']
                                rfl
                    · rw [if_neg hc3] at hclass
                      by_cases hc4 : 0xf0 ≤ b1 ∧ b1 < 0xf5
                      · rw [if_pos hc4] at hclass
                        simp only [Option.some.injEq, Prod.mk.injEq] at hclass
                        obtain ⟨hn, hcp0, hlb, hub⟩ := hclass
                        subst hn
                        subst hcp0
                        subst hlb
                        subst hub
                        cases rest with
                        | nil => simp at htr
                        | cons b2 rtl =>
                          cases rtl with
                          | nil => simp at htr
                          | cons b3 rtl2 =>
                            cases rtl2 with
                            | nil => simp at htr
                            | cons b4 rest' =>
                              rw [show List.take (4 - 1) (b2 :: b3 :: b4 :: rest')
                                  = [b2, b3, b4] from by simp] at hcont
                              unfold contBytes at hcont
                              by_cases hb2 : b2 < (if b1 = 0xf0 then 0x90 else 0x80)
                                  ∨ b2 > (if b1 = 0xf4 then 0x8f else 0xbf)
                              · rw [if_pos hb2] at hcont
                                exact absurd hcont (by simp)
                              · rw [if_neg hb2] at hcont
                                unfold contBytes at hcont
                                by_cases hb3 : b3 < 0x80 ∨ b3 > 0xbf
                                · rw [if_pos hb3] at hcont
                                  exact absurd hcont (by simp)
                                · rw [if_neg hb3] at hcont
                                  unfold contBytes at hcont
                                  by_cases hb4 : b4 < 0x80 ∨ b4 > 0xbf
                                  · rw [if_pos hb4] at hcont
                                    exact absurd hcont (by simp)
                                  · rw [if_neg hb4] at hcont
                                    unfold contBytes at hcont
                                    simp only [Option.some.injEq] at hcont
                                    subst hcont
                                    push_neg at hb2 hb3 hb4
                                    obtain ⟨hinv_s, hinv_e⟩ :=
                                      class4_invert b1 b2 b3 b4 hc4.1 hc4.2
                                        hb2.1 hb2.2 hb3.1 hb3.2 hb4.1 hb4.2
                                    rw [show List.drop (4 - 1)
                                        (b2 :: b3 :: b4 :: rest')
                                        = rest' from by simp] at henc'
                                    refine ⟨?_, ?_⟩
                                    · intro c hc
                                      rcases List.mem_cons.mp hc with rfl | hc
                                      · exact hinv_s
                                      · exact hs' c hc
                                    · simp only [encodeUtf8Fallback, hinv_e, henc']
                                      rfl
                      · rw [if_neg hc4] at hclass
                        exact absurd hclass (by simp)
  exact fun bytes u h => key bytes.length bytes le_rfl u h

/-- C7: with `fatal := true` (either `ignoreBOM` setting), decodeUtf8
fails - with no partial output, as the `Except` result carries either a
complete text or an `InvalidByteSequence` error, never both - if and only
if the buffer is not the UTF-8 encoding of a scalar-value sequence; and
whenever it succeeds it returns the complete decoded text, the same text
the non-fatal decode returns. -/
theorem c7_fatal_validity (bytes : List Nat) (ib : Bool) :
    ((decodeUtf8Fallback bytes true ib).isOk = true
      ↔ ∃ s, ScalarList s ∧ encodeUtf8Fallback s = bytes)
    ∧ (∀ t, decodeUtf8Fallback bytes true ib = .ok t →
        decodeUtf8Fallback bytes false ib = .ok t) := by
  constructor
  · constructor
    · intro hok
      unfold decodeUtf8Fallback at hok
      cases hres : decodeUtf8Loop true bytes with
      | error e =>
        rw [hres] at hok
        simp [Except.map, Except.isOk, Except.toBool] at hok
      | ok u =>
        obtain ⟨hs, henc⟩ := fatal_ok_encode bytes u hres
        exact ⟨u, hs, henc⟩
    · rintro ⟨s, hs, rfl⟩
      unfold decodeUtf8Fallback
      rw [decodeLoop_encode true s hs]
      simp [Except.map, Except.isOk, Except.toBool]
  · intro t ht
    unfold decodeUtf8Fallback at ht ⊢
    cases hres : decodeUtf8Loop true bytes with
    | error e =>
      rw [hres] at ht
      simp [Except.map] at ht
    | ok u =>
      rw [hres] at ht
      obtain ⟨hs, henc⟩ := fatal_ok_encode bytes u hres
      have hfalse : decodeUtf8Loop false bytes = .ok u := by
        rw [← henc]
        exact decodeLoop_encode false u hs
      rw [hfalse]
      exact ht

/-- Witness for C7: both directions exercised at `[0x41]` (valid) and a
success transported to the non-fatal decoder. -/
theorem c7_fatal_validity_witness :
    decodeUtf8Fallback [0x41] false false = .ok [0x41]
    ∧ ((decodeUtf8Fallback [0xff] true false).isOk = true
        ↔ ∃ s, ScalarList s ∧ encodeUtf8Fallback s = [0xff]) :=
  ⟨(c7_fatal_validity [0x41] false).2 [0x41]
      (by
        norm_num [decodeUtf8Fallback, decodeUtf8Loop, classifyLead, contBytes]
        all_goals decide),
    (c7_fatal_validity [0xff] false).1⟩

end HappyCodec
